import Mathlib

/-!  Verification of the obsidian-tag-renamer core against its specification.

The definitions below are a shallow embedding of the TypeScript source:
`src/services/TagProcessor.ts` (tag extraction, pattern application,
duplicate removal), `src/services/FileService.ts` (batch orchestration and
the vault tag scan) and `main.ts` (import validation).  Strings are modeled
as `List Char` with `String` wrappers; the fixed regular expressions of
`src/constants/patterns.js` are implemented as dedicated scanners whose
behaviour (greediness, backtracking, anchors) is derived from the JS regex
semantics and documented at each definition.  -/

namespace TagRenamer

/-- JS `\s` restricted to the ASCII range (space, tab, newline, carriage
return, vertical tab, form feed); the documents in scope are ASCII. -/
def jsIsSpace (c : Char) : Bool :=
  c = ' ' || c = '\t' || c = '\n' || c = '\r' || c = '\x0b' || c = '\x0c'

/-- JS `String.prototype.trim` on ASCII whitespace. -/
def jsTrimL (s : List Char) : List Char :=
  ((s.dropWhile jsIsSpace).reverse.dropWhile jsIsSpace).reverse

/-- The global replace `.replace(/['"]/g, '')` used throughout
`TagProcessor.ts`: every single- and double-quote character is deleted, at
any position in the string. -/
def stripQuotesL (s : List Char) : List Char :=
  s.filter (fun c => !(c = '\'' || c = '"'))

/-- The value-cleaning pipeline `tag.trim().replace(/['"]/g, '')` of
`TagProcessor.ts` (trim first, then delete all quotes). -/
def cleanTagL (s : List Char) : List Char :=
  stripQuotesL (jsTrimL s)

/-!  ## The compiled search regex (`escapeRegex` + `new RegExp`)

`TagProcessor.escapeRegex` escapes every JS regex metacharacter, and
`processFileContent` compiles `new RegExp('^' + escapeRegex(search) + '$')`.
We embed the escaping function verbatim and give the anchored regex a
semantics via a small atom interpreter: an escaped character is a literal,
an unescaped `.` is the wildcard.  Unescaped quantifiers/classes never occur
in the image of `escapeRegex` and are rejected by the parser.  -/

/-- The character class `[.*+?^${}()|[\]\\]` of `TagProcessor.escapeRegex`. -/
def regexMetaChar (c : Char) : Bool :=
  c = '.' || c = '*' || c = '+' || c = '?' || c = '^' || c = '$' ||
  c = '{' || c = '}' || c = '(' || c = ')' || c = '|' || c = '[' ||
  c = ']' || c = '\\'

/-- `TagProcessor.escapeRegex`: `string.replace(/[.*+?^${}()|[\]\\]/g, '\\$&')`. -/
def escapeRegexL : List Char → List Char
  | [] => []
  | c :: cs =>
    if regexMetaChar c then '\\' :: c :: escapeRegexL cs
    else c :: escapeRegexL cs

/-- An atom of the (anchored) regexes produced by `escapeRegex`: a literal
character, or the unescaped-`.` wildcard. -/
inductive RAtom where
  | lit (c : Char)
  | wild
  deriving DecidableEq

/-- Parse a JS regex body into atoms: `\c` is the literal `c`, an unescaped
`.` is the wildcard, any other unescaped metacharacter is rejected (such a
regex is never built by the code), any other character is a literal. -/
def parseEsc : List Char → Option (List RAtom)
  | [] => some []
  | c :: ps =>
    if c = '\\' then
      match ps with
      | [] => none
      | d :: ps' => (parseEsc ps').map (RAtom.lit d :: ·)
    else if regexMetaChar c then
      if c = '.' then (parseEsc ps).map (RAtom.wild :: ·) else none
    else (parseEsc ps).map (RAtom.lit c :: ·)

/-- Matching of an atom sequence against a whole string (the `^`/`$` anchors
of the compiled pattern make the match span the entire target). -/
def matchAtoms : List RAtom → List Char → Bool
  | [], ts => ts.isEmpty
  | RAtom.lit c :: ps, ts =>
    match ts with
    | t :: ts' => (t = c) && matchAtoms ps ts'
    | [] => false
  | RAtom.wild :: ps, ts =>
    match ts with
    | _ :: ts' => matchAtoms ps ts'
    | [] => false

/-- The test `new RegExp('^' + this.escapeRegex(p.search) + '$').test(target)`
of `TagProcessor.processFileContent`. -/
def compiledTest (search target : List Char) : Bool :=
  match parseEsc (escapeRegexL search) with
  | some atoms => matchAtoms atoms target
  | none => false

/-- `TagProcessor.extractDisplayText`'s regex `/^\[([^\]]+)\]\([^)]*\)$/`:
parse `[display](target)`, returning the display text and the parenthesised
target part (including its parentheses).  The display is the nonempty
greedy run of non-`]` characters after the leading `[`; it must be followed
by `](`, a run of non-`)` characters, and a final `)` that ends the
string. -/
def linkParseL (s : List Char) : Option (List Char × List Char) :=
  match s with
  | [] => none
  | c0 :: rest =>
    if c0 = '[' then
      let d := rest.takeWhile (fun x => x != ']')
      if d.isEmpty then none
      else
        let r1 := rest.dropWhile (fun x => x != ']')
        if r1.head? = some ']' ∧ r1.tail.head? = some '(' then
          let r2 := r1.tail.tail
          let inner := r2.takeWhile (fun x => x != ')')
          if r2.dropWhile (fun x => x != ')') = [')'] then
            some (d, '(' :: (inner ++ [')']))
          else none
        else none
    else none

/-- `TagProcessor.extractDisplayText`: `[Display](link)` yields `Display`,
anything else is returned unchanged. -/
def extractDisplayTextL (s : List Char) : List Char :=
  match linkParseL s with
  | some (d, _) => d
  | none => s

/-- The `RenamePattern` record of `src/types/interfaces.ts`; an absent
`removeMode` is modeled as `false` (the code only ever tests its truthiness). -/
structure RenamePattern where
  search : String
  replace : String
  removeMode : Bool
  deriving DecidableEq

/-!  ## Splitting on a separator character

JS `String.prototype.split` semantics: `"".split(c) = [""]`,
`"a,,b".split(',') = ["a","","b"]`.  The same function with `'\n'` gives the
line decomposition used to run the per-line regex `TAG_LINE_MATCH`, whose
matches never span a newline.  -/

def splitOnCharL (sep : Char) : List Char → List (List Char)
  | [] => [[]]
  | c :: rest =>
    if c = sep then [] :: splitOnCharL sep rest
    else
      match splitOnCharL sep rest with
      | l :: ls => (c :: l) :: ls
      | [] => [[c]]

def joinTail (sep : Char) : List (List Char) → List Char
  | [] => []
  | l :: ls => sep :: (l ++ joinTail sep ls)

/-- `Array.prototype.join` with a one-character separator. -/
def joinCharL (sep : Char) : List (List Char) → List Char
  | [] => []
  | l :: ls => l ++ joinTail sep ls

/-!  ## Per-value pattern application (array / list / scalar branches)  -/

/-- The rewrite of a matched value in `processFileContent`: if the value
(`base`, already trimmed where the source trims) parses as a markdown link,
the link wrapper is reapplied around the replacement (`[replace](target)`
with the original target part), otherwise the bare replacement is used.
The source guards the regex with `includes('[') && includes('](')`; when the
full link regex fails the guard branch also falls through to the bare
replacement, so the guard is redundant and is not modeled separately. -/
def replaceWithLink (rep : List Char) (base : List Char) : List Char :=
  match linkParseL base with
  | some (_, paren) => '[' :: (rep ++ (']' :: paren))
  | none => rep

/-- The match test of the array branch: the pattern regex is run on
`extractDisplayText(tag.trim())`. -/
def tagMatchesTrim (p : RenamePattern) (t : List Char) : Bool :=
  compiledTest p.search.data (extractDisplayTextL (jsTrimL t))

/-- The match test of the list branch: the pattern regex is run on
`extractDisplayText(tag)` (the values were already trimmed when parsed). -/
def tagMatchesRaw (p : RenamePattern) (t : List Char) : Bool :=
  compiledTest p.search.data (extractDisplayTextL t)

/-- One non-remove pattern applied to one array-branch value. -/
def arrayValueStep (p : RenamePattern) (t : List Char) : List Char :=
  if tagMatchesTrim p t then replaceWithLink p.replace.data (jsTrimL t) else t

/-- One non-remove pattern applied to one list-branch value. -/
def listValueStep (p : RenamePattern) (t : List Char) : List Char :=
  if tagMatchesRaw p t then replaceWithLink p.replace.data t else t

/-- The `for (const pattern of compiledPatterns)` loop of the array branch:
remove-mode patterns filter the value list, other patterns map over it; the
`modified` flag is set whenever a replacement fires (removals set it later,
through the length comparison). -/
def arrayApplyPatterns (P : List RenamePattern) (ts : List (List Char)) :
    List (List Char) × Bool :=
  P.foldl
    (fun acc p =>
      if p.removeMode then
        (acc.1.filter (fun t => !(tagMatchesTrim p t)), acc.2)
      else
        (acc.1.map (arrayValueStep p), acc.2 || acc.1.any (tagMatchesTrim p)))
    (ts, false)

/-- The pattern loop of the list branch (same shape, untrimmed match). -/
def listApplyPatterns (P : List RenamePattern) (ts : List (List Char)) :
    List (List Char) × Bool :=
  P.foldl
    (fun acc p =>
      if p.removeMode then
        (acc.1.filter (fun t => !(tagMatchesRaw p t)), acc.2)
      else
        (acc.1.map (listValueStep p), acc.2 || acc.1.any (tagMatchesRaw p)))
    (ts, false)

/-- The per-value view of the array-branch pattern loop when no pattern is
remove-mode: the patterns are applied in list order to each value. -/
def chainApply (P : List RenamePattern) (t : List Char) : List Char :=
  P.foldl (fun v p => arrayValueStep p v) t

/-- A replacement value in plain tag form: nonempty, without brackets and
without surrounding whitespace, so that the written value reads back as
itself (used to state when renaming cannot cascade). -/
def plainReplace (p : RenamePattern) : Prop :=
  p.replace.data ≠ [] ∧ jsTrimL p.replace.data = p.replace.data ∧
    '[' ∉ p.replace.data ∧ ']' ∉ p.replace.data

instance (p : RenamePattern) : Decidable (plainReplace p) :=
  inferInstanceAs (Decidable (p.replace.data ≠ [] ∧
    jsTrimL p.replace.data = p.replace.data ∧
    '[' ∉ p.replace.data ∧ ']' ∉ p.replace.data))

/-!  ## The array pass (`TAG_ARRAY` = `/^tags:\s*\[(.*?)\]$/gm`)

With the `m` flag `^` holds at the string start and after every newline,
and `$` before every newline and at the string end.  JS `\s` matches the
newline itself, so after the literal `tags:` the greedy `\s*` may run
across line breaks; `\[` then has to follow the maximal whitespace run
directly (backtracking to a shorter run would put `\[` on a whitespace
character, which fails).  The lazy `(.*?)` cannot cross a newline, so the
capture is the text between the `[` and the first following `]` that sits
at the end of that same line; if that line has no such `]` the whole
attempt fails.  -/

/-- The lazy tail `(.*?)\]$` of `TAG_ARRAY`, scanned from just after the
`[`: at each position the regex first tries `\]$` (a `]` followed by a
newline or the string end), and otherwise consumes one non-newline
character.  Returns the capture; the characters consumed are the capture
plus the closing `]`. -/
def arrInnerScan : List Char → Option (List Char)
  | [] => none
  | c :: cs =>
    if c = ']' ∧ (cs.head? = some '\n' ∨ cs = []) then some []
    else if c = '\n' then none
    else (arrInnerScan cs).map (fun g => c :: g)

/-- Try to match `TAG_ARRAY` at the start of `s` (which must be a line
start).  Returns the capture and the length of the full match (always at
least one character). -/
def matchArrayAt (s : List Char) : Option (List Char × Nat) :=
  if s.take 5 = "tags:".data then
    let ws := (s.drop 5).takeWhile jsIsSpace
    match ((s.drop 5).drop ws.length) with
    | '[' :: r2 =>
      (arrInnerScan r2).map (fun g => (g, 5 + ws.length + 1 + g.length + 1))
    | _ => none
  else none

/-!  ## The generic `g`+`m` replace scan

`String.prototype.replace` with a global multiline regex whose matches can
only begin at a line start (all three tag-field regexes start with `^` and
a non-empty literal): unmatched text is copied verbatim, each match is
handed to the callback and the scan resumes right after the matched block,
which is never rescanned.  Fuel `s.length + 1` always suffices because
every step consumes at least one character.  -/

def gmScan (matchAt : List Char → Option (List Char × Nat))
    (cb : List Char → List Char → List Char × Bool) :
    Nat → List Char → Bool → List Char × Bool
  | 0, s, _ => (s, false)
  | fuel + 1, s, atLS =>
    match s with
    | [] => ([], false)
    | c :: rest =>
      match (if atLS then matchAt (c :: rest) else none) with
      | some (cap, len) =>
        let block := (c :: rest).take len
        let r1 := cb block cap
        let r2 := gmScan matchAt cb fuel ((c :: rest).drop len)
          (block.getLast? = some '\n')
        (r1.1 ++ r2.1, r1.2 || r2.2)
      | none =>
        let r := gmScan matchAt cb fuel rest (c = '\n')
        (c :: r.1, r.2)

/-- The `(block, capture)` pairs the scan above hands to its callback, in
order. -/
def gmBlocks (matchAt : List Char → Option (List Char × Nat)) :
    Nat → List Char → Bool → List (List Char × List Char)
  | 0, _, _ => []
  | fuel + 1, s, atLS =>
    match s with
    | [] => []
    | c :: rest =>
      match (if atLS then matchAt (c :: rest) else none) with
      | some (cap, len) =>
        ((c :: rest).take len, cap) ::
          gmBlocks matchAt fuel ((c :: rest).drop len)
            (((c :: rest).take len).getLast? = some '\n')
      | none => gmBlocks matchAt fuel rest (c = '\n')

def quoteTagL (t : List Char) : List Char :=
  '"' :: (t ++ ['"'])

def joinCommaSpL (ts : List (List Char)) : List Char :=
  List.intercalate [',', ' '] ts

/-- `tags: [${formattedTags}]` with
`formattedTags = tags.filter(t => t.length > 0).map(t => '"' + t + '"').join(', ')`. -/
def formatArrayValues (ts : List (List Char)) : List Char :=
  "tags: [".data ++ joinCommaSpL ((ts.filter (fun t => !t.isEmpty)).map quoteTagL) ++ [']']

/-- The array-branch replace callback of `processFileContent` (input: the
capture between the brackets). -/
def processArrayContent (P : List RenamePattern) (inner : List Char) :
    List Char × Bool :=
  let tags0 := (splitOnCharL ',' inner).map cleanTagL
  let res := arrayApplyPatterns P tags0
  (formatArrayValues res.1, res.2 || decide (res.1.length ≠ tags0.length))

/-- The whole `frontmatter.replace(REGEX_PATTERNS.TAG_ARRAY, cb)` pass of
`processFileContent` (the callback ignores the matched block — `_line` in
the source — and always rewrites the field from the capture). -/
def arrayPass (P : List RenamePattern) (fm : List Char) : List Char × Bool :=
  gmScan matchArrayAt (fun _ inner => processArrayContent P inner)
    (fm.length + 1) fm true

/-!  ## Duplicate removal (`removeDuplicateTagsFromContent`)  -/

/-- `[...new Set(xs)]`: JS `Set` iteration order is insertion order, so
this keeps the first occurrence of each value. -/
def jsSetDedup {α : Type} [DecidableEq α] (ts : List α) : List α :=
  ts.foldl (fun acc t => if t ∈ acc then acc else acc ++ [t]) []

def jsSetDedupL (ts : List (List Char)) : List (List Char) :=
  jsSetDedup ts

/-- `tags: [...]` as written by the dedupe callback (no extra empty-filter:
the deduped list already comes from a filtered list). -/
def formatArrayValuesAll (ts : List (List Char)) : List Char :=
  "tags: [".data ++ joinCommaSpL (ts.map quoteTagL) ++ [']']

/-- The array-branch callback of `removeDuplicateTagsFromContent`: rewrite
only when deduplication shrank the (nonempty-filtered) value list, else
return the matched text (`line` in the source) unchanged. -/
def dedupeArrayBlock (block inner : List Char) : List Char × Bool :=
  let tags := ((splitOnCharL ',' inner).map cleanTagL).filter (fun t => !t.isEmpty)
  let uniq := jsSetDedupL tags
  if uniq.length ≠ tags.length then (formatArrayValuesAll uniq, true)
  else (block, false)

def dedupeArrayPass (fm : List Char) : List Char × Bool :=
  gmScan matchArrayAt dedupeArrayBlock (fm.length + 1) fm true

/-!  ## The list pass (`TAG_LIST` = `/^tags:\s*\n((?:\s*-\s*[^\n]+\n?)+)/gm`)

Backtracking analysis of the JS regex, encoded below:
* after the literal `tags:` the greedy `\s*` plus the literal `\n`
  consume the maximal whitespace run up to and including its *last*
  newline (later backtracking positions are preferred);
* each item `\s*-\s*[^\n]+\n?` consumes whitespace (which may itself cross
  newlines), a `-`, more whitespace, at least one non-newline character
  (greedily up to the end of the line) and an optional newline;
* when the string ends inside the whitespace after a `-`, backtracking
  shortens the inner `\s*` so that `[^\n]+` still gets one character:
  the chosen split puts `[^\n]+` at the last non-newline character of the
  run (nothing if the run is all newlines, in which case the item fails).
-/

/-- Chars consumed after a `-` whose remaining input `r2` is all whitespace
(end of string): the item succeeds iff `r2` has a non-newline character;
the consumed part ends after the last non-newline character, plus one
optional newline. -/
def backtrackItem (r2 : List Char) : Option Nat :=
  let k := (r2.reverse.takeWhile (fun c => c = '\n')).length
  if k = r2.length then none
  else some (r2.length - k + (if 0 < k then 1 else 0))

/-- One item `\s*-\s*[^\n]+\n?`, returning the number of characters it
consumes (at least 1). -/
def parseItem (s : List Char) : Option Nat :=
  let a := s.takeWhile jsIsSpace
  match s.drop a.length with
  | '-' :: v =>
    let r2 := v.takeWhile jsIsSpace
    match v.drop r2.length with
    | [] => (backtrackItem r2).map (fun n => a.length + 1 + n)
    | w =>
      let b := w.takeWhile (fun c => c ≠ '\n')
      let cNl := if (w.drop b.length).head? = some '\n' then 1 else 0
      some (a.length + 1 + r2.length + b.length + cNl)
  | _ => none

/-- The `+` loop over items (fuel-bounded; each item consumes ≥ 1 char, so
fuel `s.length + 1` is always enough). -/
def itemsLoop : Nat → List Char → Nat
  | 0, _ => 0
  | fuel + 1, s =>
    match parseItem s with
    | none => 0
    | some n => if n = 0 then 0 else n + itemsLoop fuel (s.drop n)

/-- Try to match `TAG_LIST` at the start of `s` (which must be a line
start).  Returns `(pre, n)` where `pre` is the length of
`tags:` + whitespace up to and including the last newline of the run, and
`n` the length of the captured item block; the full match has length
`pre + n`. -/
def matchTagListAt (s : List Char) : Option (Nat × Nat) :=
  if s.take 5 = "tags:".data then
    let r := (s.drop 5).takeWhile jsIsSpace
    let kTrail := (r.reverse.takeWhile (fun c => c ≠ '\n')).length
    if r.length = kTrail then none
    else
      let pre := 5 + (r.length - kTrail)
      let tail := s.drop pre
      let n := itemsLoop (tail.length + 1) tail
      if 0 < n then some (pre, n) else none
  else none

/-- Generic scan for `frontmatter.replace(REGEX_PATTERNS.TAG_LIST, cb)`:
global matching restarts after each match (the replacement text is not
rescanned); `^` with the `m` flag holds at the string start and after each
newline of the *original* string. -/
def listScanG (cb : List Char → List Char × Bool) :
    Nat → List Char → Bool → List Char × Bool
  | 0, s, _ => (s, false)
  | fuel + 1, s, atLS =>
    match s with
    | [] => ([], false)
    | c :: rest =>
      match (if atLS then matchTagListAt s else none) with
      | some (pre, n) =>
        let len := pre + n
        let block := s.take len
        let r1 := cb block
        let r2 := listScanG cb fuel (s.drop len) (block.getLast? = some '\n')
        (r1.1 ++ r2.1, r1.2 || r2.2)
      | none =>
        let r := listScanG cb fuel rest (c = '\n')
        (c :: r.1, r.2)

/-- The blocks the scan above hands to its callback, in order. -/
def listBlocksG : Nat → List Char → Bool → List (List Char)
  | 0, _, _ => []
  | fuel + 1, s, atLS =>
    match s with
    | [] => []
    | c :: rest =>
      match (if atLS then matchTagListAt s else none) with
      | some (pre, n) =>
        let len := pre + n
        s.take len :: listBlocksG fuel (s.drop len) ((s.take len).getLast? = some '\n')
      | none => listBlocksG fuel rest (c = '\n')

/-- `TAG_LINE_MATCH` (`/^\s*-\s*([^\n]+)$/gm`) on one line, composed with the
strip `line.replace(/^\s*-\s*/, '').trim().replace(/['"]/g, '')` of the
callbacks: a line matches iff after its leading whitespace comes a `-`
followed by at least one character. -/
def itemLineTag? (line : List Char) : Option (List Char) :=
  match line.dropWhile jsIsSpace with
  | '-' :: v =>
    if v.isEmpty then none
    else some (stripQuotesL (jsTrimL (v.dropWhile jsIsSpace)))
  | _ => none

/-- `tags:\n  - "t1"\n  - "t2"\n` as written by the list callbacks. -/
def formatListValues (ts : List (List Char)) : List Char :=
  "tags:\n".data ++
    List.intercalate ['\n'] (ts.map (fun t => "  - ".data ++ quoteTagL t)) ++ ['\n']

/-- The list-branch callback of `processFileContent` (input: the full
match, i.e. the `tags:` line plus the item lines). -/
def processListBlock (P : List RenamePattern) (block : List Char) :
    List Char × Bool :=
  let items := (splitOnCharL '\n' block).filterMap itemLineTag?
  if items.isEmpty then (block, false)
  else
    let tags0 := items.filter (fun t => !t.isEmpty)
    let res := listApplyPatterns P tags0
    let f := res.1.length ≠ tags0.length
    if res.1.isEmpty then ([], res.2 || decide f)
    else (formatListValues res.1, res.2 || decide f)

/-- The list-branch callback of `removeDuplicateTagsFromContent`. -/
def dedupeListBlock (block : List Char) : List Char × Bool :=
  let items := (splitOnCharL '\n' block).filterMap itemLineTag?
  if items.isEmpty then (block, false)
  else
    let tags := items.filter (fun t => !t.isEmpty)
    let uniq := jsSetDedupL tags
    if uniq.length ≠ tags.length then (formatListValues uniq, true)
    else (block, false)

/-!  ## The scalar pass (`SINGLE_TAG` = `/^tag:\s*(.+)$/gm`)

JS `\s` matches the newline, so the greedy `\s*` after `tag:` may run
across line breaks; `(.+)` then captures from the first non-whitespace
character to the end of that line.  When everything after `tag:` up to the
string end is whitespace, backtracking shortens `\s*` until `.` gets a
character: the capture becomes the last non-newline character of the run
(the attempt fails if the run is all newlines).  -/

/-- Try to match `SINGLE_TAG` at the start of `s` (which must be a line
start).  Returns the capture and the length of the full match (always at
least one character). -/
def matchSingleAt (s : List Char) : Option (List Char × Nat) :=
  if s.take 4 = "tag:".data then
    let ws := (s.drop 4).takeWhile jsIsSpace
    match ((s.drop 4).drop ws.length) with
    | [] =>
      let kept := ws.take (ws.length - (ws.reverse.takeWhile (fun c => c = '\n')).length)
      match kept.getLast? with
      | some c => some ([c], 4 + kept.length)
      | none => none
    | c :: r =>
      let g := (c :: r).takeWhile (fun x => x ≠ '\n')
      some (g, 4 + ws.length + g.length)
  else none

/-- The scalar-branch callback of `processFileContent`: the *first* pattern
whose regex matches the cleaned display text wins (the loop returns); when
none matches the matched text (`line` in the source) is returned
unchanged. -/
def processSingleBlock (P : List RenamePattern) (block g : List Char) :
    List Char × Bool :=
  let cleanT := stripQuotesL (jsTrimL g)
  match P.find? (fun p => compiledTest p.search.data (extractDisplayTextL cleanT)) with
  | none => (block, false)
  | some p =>
    if p.removeMode then ([], true)
    else ("tag: \"".data ++ replaceWithLink p.replace.data cleanT ++ ['"'], true)

def singlePass (P : List RenamePattern) (fm : List Char) : List Char × Bool :=
  gmScan matchSingleAt (processSingleBlock P) (fm.length + 1) fm true

/-!  ## Cleanup and frontmatter location  -/

/-- `frontmatter.replace(/\n\n+/g, '\n')`: every run of two or more
newlines collapses to a single one (implemented as: keep the first newline
of each run, drop the following ones). -/
def collapseNLAux : Bool → List Char → List Char
  | _, [] => []
  | prevNL, c :: rest =>
    if c = '\n' then
      if prevNL then collapseNLAux true rest
      else '\n' :: collapseNLAux true rest
    else c :: collapseNLAux false rest

def collapseNewlines (s : List Char) : List Char :=
  collapseNLAux false s

/-- `frontmatter.replace(/^\n+|\n+$/g, '')`. -/
def trimNewlinesEnds (s : List Char) : List Char :=
  ((s.dropWhile (fun c => c = '\n')).reverse.dropWhile (fun c => c = '\n')).reverse

/-- First occurrence of `"\n---"`: split `s` into the part before it and
the part after it. -/
def findSplit : List Char → Option (List Char × List Char)
  | [] => none
  | c :: rest =>
    if c = '\n' && rest.take 3 = "---".data then some ([], rest.drop 3)
    else (findSplit rest).map (fun pr => (c :: pr.1, pr.2))

/-- `FRONTMATTER` (the regex `^---\n(.*?)\n---` with the `s` flag): the
document must start with `---\n`; the non-greedy capture runs to the first
following `"\n---"`.  Returns the capture and the remainder after the
closing delimiter. -/
def parseFrontmatter (content : List Char) : Option (List Char × List Char) :=
  if content.take 4 = "---\n".data then findSplit (content.drop 4)
  else none

/-!  ## `TagProcessor.processFileContent`  -/

/-- `TagProcessor.processFileContent` (TypeScript source,
`src/services/TagProcessor.ts`): the three replace passes run in sequence
on the frontmatter, then blank-line cleanup; if any callback set the
`modified` flag the rewritten header is spliced back
(`content.replace(FRONTMATTER, '---\n' + fm + '\n---')`, modeled as a
literal splice), otherwise the original document is returned unchanged. -/
def processFileContentL (P : List RenamePattern) (content : List Char) : List Char :=
  match parseFrontmatter content with
  | none => content
  | some (fm, after) =>
    let r1 := arrayPass P fm
    let r2 := listScanG (processListBlock P) (r1.1.length + 1) r1.1 true
    let r3 := singlePass P r2.1
    let fm4 := trimNewlinesEnds (collapseNewlines r3.1)
    if r1.2 || r2.2 || r3.2 then "---\n".data ++ fm4 ++ "\n---".data ++ after
    else content

def processFileContent (content : String) (patterns : List RenamePattern) : String :=
  ⟨processFileContentL patterns content.data⟩

/-!  ## `TagProcessor.removeDuplicateTagsFromContent`  -/

def removeDuplicateTagsFromContentL (content : List Char) : List Char :=
  match parseFrontmatter content with
  | none => content
  | some (fm, after) =>
    let r1 := dedupeArrayPass fm
    let r2 := listScanG dedupeListBlock (r1.1.length + 1) r1.1 true
    if r1.2 || r2.2 then "---\n".data ++ r2.1 ++ "\n---".data ++ after
    else content

def removeDuplicateTagsFromContent (content : String) : String :=
  ⟨removeDuplicateTagsFromContentL content.data⟩

/-!  ## `TagProcessor.extractTagsFromContent`  -/

/-- One `TAG_ARRAY` match of the extraction: the strip
`line.replace(/^tags:\s*\[|\]$/g, '')` applied to the full match recovers
exactly the capture, which is split on commas, cleaned, reduced to display
text, and filtered to the nonempty results. -/
def extractArrayCapture (inner : List Char) : List (List Char) :=
  ((splitOnCharL ',' inner).map (fun t => extractDisplayTextL (cleanTagL t))).filter
    (fun t => !t.isEmpty)

/-- One list block of the extraction. -/
def extractListBlock (block : List Char) : List (List Char) :=
  ((splitOnCharL '\n' block).filterMap itemLineTag?).filterMap
    (fun t =>
      let d := extractDisplayTextL t
      if d.isEmpty then none else some d)

/-- One `SINGLE_TAG` match of the extraction: the strip
`line.replace(/^tag:\s*/, '')` applied to the full match followed by
`trim` yields the trimmed capture (the capture of a backtracked match is a
single whitespace character, which trims to the empty string and is
dropped). -/
def extractSingleCapture (g : List Char) : Option (List Char) :=
  let v := stripQuotesL (jsTrimL g)
  let d := extractDisplayTextL v
  if d.isEmpty then none else some d

def extractTagsFromContentL (content : List Char) : List (List Char) :=
  match parseFrontmatter content with
  | none => []
  | some (fm, _) =>
    ((gmBlocks matchArrayAt (fm.length + 1) fm true).flatMap
      (fun pr => extractArrayCapture pr.2)) ++
      ((listBlocksG (fm.length + 1) fm true).flatMap extractListBlock) ++
      ((gmBlocks matchSingleAt (fm.length + 1) fm true).filterMap
        (fun pr => extractSingleCapture pr.2))

def extractTagsFromContent (content : String) : List String :=
  (extractTagsFromContentL content.data).map (fun l => ⟨l⟩)

/-!  ## The values a run of `processFileContent` tests patterns against

The three passes run in sequence, so the list pass scans the output of the
array pass and the scalar pass the output of the list pass.  The array and
list passes rewrite matched regions even when nothing matched (the result
is discarded when the `modified` flag stays false), so the stage inputs are
obtained by running the passes with the empty pattern list, which never
matches anything.  -/

structure VFile where
  readResult : Except String String
  writeError : Option String

structure BatchResult where
  processed : Nat
  modified : Nat
  errors : List String
  deriving DecidableEq

/-- `patterns.filter(p => p.search && (p.removeMode || p.replace))`. -/
def validPatterns (patterns : List RenamePattern) : List RenamePattern :=
  patterns.filter (fun p => p.search ≠ "" && (p.removeMode || p.replace ≠ ""))

/-- The loop body of `FileService.renameTags`: a read error is caught and
reported; otherwise the content is processed, written back when changed
(a write error is also caught, skipping both counters), and the counters
advance. -/
def renameTagsStep (P : List RenamePattern) (acc : BatchResult) (f : VFile) :
    BatchResult :=
  match f.readResult with
  | Except.error e => { acc with errors := acc.errors ++ [e] }
  | Except.ok content =>
    let m := processFileContent content P
    if m = content then { acc with processed := acc.processed + 1 }
    else
      match f.writeError with
      | some e => { acc with errors := acc.errors ++ [e] }
      | none =>
        { acc with modified := acc.modified + 1, processed := acc.processed + 1 }

/-- `FileService.renameTags`: early return when no valid pattern is
configured, else the per-file loop. -/
def renameTags (files : List VFile) (patterns : List RenamePattern) : BatchResult :=
  let vp := validPatterns patterns
  if vp.isEmpty then ⟨0, 0, []⟩
  else files.foldl (renameTagsStep vp) ⟨0, 0, []⟩

/-!  ## `FileService.getAllTagsInVault`

Reads every markdown file (per-file read errors degrade to no tags), adds
each extracted tag to a `Set` (insertion order; the fixed-size read batches
of the source preserve file order through `Promise.all`), and returns
`Array.from(allTags).sort()`.  The default `sort()` comparator orders
strings by their UTF-16 code units; on the ASCII range this is Lean's
lexicographic `String` order.  -/

def insertionDedupStr (ts : List String) : List String :=
  jsSetDedup ts

/-- The default `Array.prototype.sort()` comparator on strings: compare
code-unit sequences lexicographically (on the ASCII range the code unit is
the character's code point). -/
def lexLe : List Char → List Char → Bool
  | [], _ => true
  | _ :: _, [] => false
  | a :: as, b :: bs =>
    if a.toNat < b.toNat then true
    else if b.toNat < a.toNat then false
    else lexLe as bs

def jsStrLe (a b : String) : Bool :=
  lexLe a.data b.data

def getAllTagsInVault (reads : List (Except String String)) : List String :=
  let all := reads.flatMap (fun r =>
    match r with
    | Except.ok c => extractTagsFromContent c
    | Except.error _ => [])
  List.insertionSort (fun a b => jsStrLe a b = true) (insertionDedupStr all)

/-- Lower-casing of a string, used to state what a case-insensitive order
would be (the specification side of claim C9). -/
def lowerStr (s : String) : String :=
  ⟨s.data.map Char.toLower⟩

/-!  ## Import validation (`main.ts`: `validateImportData`,
`importPatternsFromJson`)

Parsed JSON values are modeled by `JValue`; JS property access on a
non-object yields `undefined` (`none`), `typeof x === 'object'` holds for
objects, arrays and `null`, and truthiness follows JS.  -/

inductive JValue where
  | null
  | bool (b : Bool)
  | num (n : Int)
  | str (s : String)
  | arr (elems : List JValue)
  | obj (fields : List (String × JValue))

def JValue.getField : JValue → String → Option JValue
  | JValue.obj fs, k => (fs.find? (fun f => f.1 == k)).map Prod.snd
  | _, _ => none

def JValue.truthy : JValue → Bool
  | JValue.null => false
  | JValue.bool b => b
  | JValue.num n => n != 0
  | JValue.str s => s != ""
  | JValue.arr _ => true
  | JValue.obj _ => true

def JValue.isObjectType : JValue → Bool
  | JValue.null => true
  | JValue.arr _ => true
  | JValue.obj _ => true
  | _ => false

def isStrField (o : Option JValue) : Bool :=
  match o with
  | some (JValue.str _) => true
  | _ => false

/-- The `for (let i = 0; ...)` validation loop over `data.patterns`. -/
def checkPatternsFrom : Nat → List JValue → Option String
  | _, [] => none
  | i, p :: rest =>
    if !(p.truthy && p.isObjectType) then
      some ("Pattern " ++ toString (i + 1) ++ " is invalid")
    else if !(isStrField (p.getField "search") && isStrField (p.getField "replace")) then
      some ("Pattern " ++ toString (i + 1) ++ " must have search and replace strings")
    else if (match p.getField "removeMode" with
             | none => false
             | some (JValue.bool _) => false
             | some _ => true) then
      some ("Pattern " ++ toString (i + 1) ++ " removeMode must be boolean")
    else checkPatternsFrom (i + 1) rest

/-- `data.patterns` when it is a (truthy) array, `none` otherwise
(`!data.patterns || !Array.isArray(data.patterns)`). -/
def getPatternsArr (data : JValue) : Option (List JValue) :=
  match data.getField "patterns" with
  | some (JValue.arr ps) => some ps
  | _ => none

/-- `validateImportData` of `main.ts` (`none` = valid, `some e` = the
error message). -/
def validateImportData (data : JValue) : Option String :=
  if !(data.truthy && data.isObjectType) then some "Invalid JSON format"
  else
    match getPatternsArr data with
    | some ps => checkPatternsFrom 0 ps
    | none => some "Missing or invalid patterns array"

/-- One imported pattern:
`{search: p.search, replace: p.replace, removeMode: p.removeMode || false}`
(validation guarantees the fields are strings / an optional boolean). -/
def mkImportedPattern (p : JValue) : RenamePattern :=
  { search := match p.getField "search" with | some (JValue.str s) => s | _ => ""
    replace := match p.getField "replace" with | some (JValue.str s) => s | _ => ""
    removeMode := match p.getField "removeMode" with
                  | some (JValue.bool b) => b
                  | _ => false }

structure ImportOutcome where
  success : Bool
  error : Option String
  imported : Option Nat
  deriving DecidableEq

/-- `importPatternsFromJson` (on an already parsed value; a JSON parse
failure takes the same catch path as a validation failure: an error result
and untouched settings): on success the imported list replaces the settings
or, in merge mode, is appended to them. -/
def importPatternsFromJson (settings : List RenamePattern) (data : JValue)
    (mergeMode : Bool) : ImportOutcome × List RenamePattern :=
  match validateImportData data with
  | some e => (⟨false, some e, none⟩, settings)
  | none =>
    match getPatternsArr data with
    | some ps =>
      let imported := ps.map mkImportedPattern
      (⟨true, none, some imported.length⟩,
       if mergeMode then settings ++ imported else imported)
    | none => (⟨false, some "Missing or invalid patterns array", none⟩, settings)

/-!  ## Per-file outcome of the batch loop (used to state its contract)  -/

/-- The error the `catch` of `FileService.renameTags` reports for one file,
if any: the read error, or the write error when the file's content
changes. -/
def fileError? (P : List RenamePattern) (f : VFile) : Option String :=
  match f.readResult with
  | Except.error e => some e
  | Except.ok c => if processFileContent c P = c then none else f.writeError

/-- A file counts as modified when its read succeeds, its content changes
and its write succeeds. -/
def fileModifies (P : List RenamePattern) (f : VFile) : Bool :=
  match f.readResult with
  | Except.ok c => decide (processFileContent c P ≠ c) && f.writeError.isNone
  | Except.error _ => false

/-- A file counts as processed when its read succeeds and nothing it needed
failed (unchanged content needs no write). -/
def fileProcessed (P : List RenamePattern) (f : VFile) : Bool :=
  match f.readResult with
  | Except.ok c => decide (processFileContent c P = c) || f.writeError.isNone
  | Except.error _ => false

end TagRenamer

namespace TagRenamer

/-!  ## Basic lemmas about the compiled regex  -/

theorem parseEsc_escapeRegexL (s : List Char) :
    parseEsc (escapeRegexL s) = some (s.map RAtom.lit) := by
  induction s with
  | nil => rfl
  | cons c cs ih =>
    by_cases h : regexMetaChar c = true
    · rw [escapeRegexL, if_pos h, parseEsc.eq_def]
      simp [ih]
    · have hb : c ≠ '\\' := by
        intro he; subst he; simp [regexMetaChar] at h
      have hm : regexMetaChar c = false := by
        simpa using h
      rw [escapeRegexL, if_neg h, parseEsc.eq_def]
      simp [hb, hm, ih]

theorem matchAtoms_lits (s t : List Char) :
    matchAtoms (s.map RAtom.lit) t = true ↔ t = s := by
  induction s generalizing t with
  | nil =>
    cases t <;> simp [matchAtoms, List.isEmpty]
  | cons c cs ih =>
    cases t with
    | nil => simp [matchAtoms]
    | cons a ts =>
      simp only [List.map_cons, matchAtoms, Bool.and_eq_true, decide_eq_true_eq,
        List.cons.injEq, ih]

theorem compiledTest_eq (s t : List Char) :
    compiledTest s t = true ↔ t = s := by
  rw [compiledTest, parseEsc_escapeRegexL]
  exact matchAtoms_lits s t

/-!  ## List helper lemmas  -/

theorem splitOnCharL_ne_nil (sep : Char) (s : List Char) :
    splitOnCharL sep s ≠ [] := by
  induction s with
  | nil => simp [splitOnCharL]
  | cons c rest ih =>
    by_cases h : c = sep
    · simp [splitOnCharL, h]
    · simp only [splitOnCharL, if_neg h]
      cases hs : splitOnCharL sep rest with
      | nil => simp
      | cons l ls => simp

theorem joinCharL_splitOnCharL (sep : Char) (s : List Char) :
    joinCharL sep (splitOnCharL sep s) = s := by
  induction s with
  | nil => rfl
  | cons c rest ih =>
    by_cases h : c = sep
    · subst h
      rw [splitOnCharL, if_pos rfl]
      cases hs : splitOnCharL c rest with
      | nil => exact absurd hs (splitOnCharL_ne_nil c rest)
      | cons l ls =>
        rw [hs] at ih
        rw [joinCharL, joinTail, List.nil_append]
        rw [joinCharL] at ih
        rw [ih]
    · simp only [splitOnCharL, if_neg h]
      cases hs : splitOnCharL sep rest with
      | nil => exact absurd hs (splitOnCharL_ne_nil sep rest)
      | cons l ls =>
        rw [hs] at ih
        rw [joinCharL] at ih ⊢
        rw [List.cons_append, ih]

theorem length_filterMap_countP {α β : Type} (g : α → Option β) (l : List α) :
    (l.filterMap g).length = l.countP (fun a => (g a).isSome) := by
  induction l with
  | nil => rfl
  | cons a l ih =>
    cases hg : g a with
    | none => simp [List.filterMap_cons, hg, List.countP_cons, ih]
    | some b => simp [List.filterMap_cons, hg, List.countP_cons, ih]

theorem takeWhile_all {p : Char → Bool} {l : List Char} :
    ∀ x ∈ l.takeWhile p, p x = true := by
  induction l with
  | nil => simp
  | cons c rest ih =>
    intro x hx
    by_cases h : p c = true
    · rw [List.takeWhile_cons, if_pos h] at hx
      rcases List.mem_cons.mp hx with h1 | h1
      · subst h1; exact h
      · exact ih x h1
    · rw [List.takeWhile_cons, if_neg h] at hx
      simp at hx

theorem dropWhile_head_false {p : Char → Bool} {l : List Char} {c : Char}
    {r : List Char} (h : l.dropWhile p = c :: r) : p c = false := by
  induction l with
  | nil => simp [List.dropWhile] at h
  | cons a rest ih =>
    by_cases hp : p a = true
    · rw [List.dropWhile_cons, if_pos hp] at h
      exact ih h
    · rw [List.dropWhile_cons, if_neg hp] at h
      cases h
      simpa using hp

theorem takeWhile_append_stop (p : Char → Bool) (l : List Char) (c : Char)
    (r : List Char) (hl : ∀ a ∈ l, p a = true) (hc : p c = false) :
    (l ++ c :: r).takeWhile p = l ∧ (l ++ c :: r).dropWhile p = c :: r := by
  induction l with
  | nil =>
    constructor
    · simp [List.takeWhile_cons, hc]
    · simp [List.dropWhile_cons, hc]
  | cons a l ih =>
    have ha : p a = true := hl a (by simp)
    have ih2 := ih (fun x hx => hl x (by simp [hx]))
    constructor
    · simp [List.takeWhile_cons, ha, ih2.1]
    · simp [List.dropWhile_cons, ha, ih2.2]

/-!  ## Link-parse characterization  -/

theorem linkParseL_of_shape (d xs : List Char)
    (hd : d ≠ []) (hdm : ∀ x ∈ d, x ≠ ']') (hxs : ∀ x ∈ xs, x ≠ ')') :
    linkParseL ('[' :: (d ++ (']' :: '(' :: (xs ++ [')'])))) =
      some (d, '(' :: (xs ++ [')'])) := by
  have hstop := takeWhile_append_stop (fun x => x != ']') d ']'
    ('(' :: (xs ++ [')'])) (fun a ha => by simpa using hdm a ha) (by simp)
  have hstop2 := takeWhile_append_stop (fun x => x != ')') xs ')' []
    (fun a ha => by simpa using hxs a ha) (by simp)
  simp only [List.append_nil] at hstop2
  have hde : d.isEmpty = false := by
    cases d with
    | nil => exact absurd rfl hd
    | cons a l => rfl
  simp only [linkParseL]
  simp [hstop.1, hstop.2, hstop2.1, hstop2.2, hde]

theorem linkParseL_some {s d paren : List Char}
    (h : linkParseL s = some (d, paren)) :
    ∃ xs, s = '[' :: (d ++ (']' :: '(' :: (xs ++ [')']))) ∧
      paren = '(' :: (xs ++ [')']) ∧ d ≠ [] ∧
      (∀ x ∈ d, x ≠ ']') ∧ (∀ x ∈ xs, x ≠ ')') := by
  match s with
  | [] => simp [linkParseL] at h
  | c0 :: rest =>
    rw [linkParseL] at h
    by_cases hc0 : c0 = '['
    · rw [if_pos hc0] at h
      subst hc0
      by_cases hde : (rest.takeWhile (fun x => x != ']')).isEmpty
      · rw [if_pos hde] at h
        exact absurd h (by simp)
      · rw [if_neg hde] at h
        by_cases hh : (rest.dropWhile (fun x => x != ']')).head? = some ']' ∧
            (rest.dropWhile (fun x => x != ']')).tail.head? = some '('
        · rw [if_pos hh] at h
          obtain ⟨a, r1', hr1⟩ : ∃ a r1', rest.dropWhile (fun x => x != ']') = a :: r1' := by
            cases hr : rest.dropWhile (fun x => x != ']') with
            | nil => rw [hr] at hh; simp at hh
            | cons a r => exact ⟨a, r, rfl⟩
          have ha : a = ']' := by
            rw [hr1] at hh; simpa using hh.1
          obtain ⟨b, r2, hr2⟩ : ∃ b r2, r1' = b :: r2 := by
            cases hr : r1' with
            | nil => rw [hr1, hr] at hh; simp at hh
            | cons b r => exact ⟨b, r, rfl⟩
          have hb : b = '(' := by
            rw [hr1, hr2] at hh; simpa using hh.2
          rw [hr1, hr2] at h
          simp only [List.tail_cons] at h
          by_cases hr3 : r2.dropWhile (fun x => x != ')') = [')']
          · rw [if_pos hr3] at h
            have h1 : rest.takeWhile (fun x => x != ']') = d ∧
                '(' :: (r2.takeWhile (fun x => x != ')') ++ [')']) = paren := by
              have := Option.some.inj h
              exact ⟨congrArg Prod.fst this, congrArg Prod.snd this⟩
            refine ⟨r2.takeWhile (fun x => x != ')'), ?_, h1.2.symm, ?_, ?_, ?_⟩
            · have e1 : rest.takeWhile (fun x => x != ']') ++
                  rest.dropWhile (fun x => x != ']') = rest :=
                List.takeWhile_append_dropWhile _ _
              have e2 : r2.takeWhile (fun x => x != ')') ++
                  r2.dropWhile (fun x => x != ')') = r2 :=
                List.takeWhile_append_dropWhile _ _
              rw [hr3] at e2
              rw [hr1, hr2, ha, hb, h1.1] at e1
              rw [e2, e1]
            · rw [← h1.1]
              simpa using hde
            · rw [← h1.1]
              intro x hx
              simpa using takeWhile_all x hx
            · intro x hx
              simpa using takeWhile_all x hx
          · rw [if_neg hr3] at h
            exact absurd h (by simp)
        · rw [if_neg hh] at h
          exact absurd h (by simp)
    · rw [if_neg hc0] at h
      exact absurd h (by simp)

/-!  ## Claim C1  -/

/-- Claim C1: the compiled search regex
`new RegExp('^' + escapeRegex(search) + '$')` matches a candidate value iff
the trimmed, unquoted, link-display-extracted form of the value equals the
search string as a whole: matching is whole-string (a proper substring such
as `work` inside `workflow` never matches) and regex metacharacters in the
search string are matched literally (`.*` matches only the two-character
string `.*`). -/
theorem claim_C1_exact_literal_match :
    (∀ s v : List Char, compiledTest s v = true ↔ v = s)
    ∧ (∀ (p : RenamePattern) (t : List Char),
        tagMatchesTrim p t = true ↔ extractDisplayTextL (jsTrimL t) = p.search.data)
    ∧ compiledTest "work".data "workflow".data = false
    ∧ compiledTest ".*".data "workflow".data = false
    ∧ compiledTest ".*".data ".*".data = true := by
  refine ⟨compiledTest_eq, ?_, by decide, by decide, by decide⟩
  intro p t
  exact compiledTest_eq p.search.data (extractDisplayTextL (jsTrimL t))

/-!  ## Claim C10  -/

theorem stripQuotesL_no_quote {s : List Char} :
    ∀ c ∈ stripQuotesL s, c ≠ '\'' ∧ c ≠ '"' := by
  intro c hc
  rw [stripQuotesL] at hc
  have hp := List.of_mem_filter hc
  constructor
  · intro he; subst he; simp at hp
  · intro he; subst he; simp at hp

theorem mem_extractDisplayTextL {s : List Char} :
    ∀ c ∈ extractDisplayTextL s, c ∈ s := by
  intro c hc
  cases hp : linkParseL s with
  | none => simpa [extractDisplayTextL, hp] using hc
  | some dp =>
    obtain ⟨d, paren⟩ := dp
    simp only [extractDisplayTextL, hp] at hc
    obtain ⟨xs, hs, -, -, -, -⟩ := linkParseL_some hp
    rw [hs]
    simp [hc]

/-- Claim C10: value cleaning deletes every quote character at any
position, not only a surrounding pair: `don't` is read as `dont`, the
dedupe pass collapses `dont` and `don't` into one value, and a search
string containing a quote character can never match any cleaned value. -/
theorem claim_C10_quote_removal :
    cleanTagL "don't".data = "dont".data
    ∧ (∀ s v : List Char, ('\'' ∈ s ∨ '"' ∈ s) →
        compiledTest s (extractDisplayTextL (cleanTagL v)) = false)
    ∧ removeDuplicateTagsFromContent "---\ntags: [dont, don't]\n---\n" =
        "---\ntags: [\"dont\"]\n---\n" := by
  refine ⟨by decide, ?_, by decide⟩
  intro s v hq
  cases hb : compiledTest s (extractDisplayTextL (cleanTagL v)) with
  | false => rfl
  | true =>
    exfalso
    have heq := (compiledTest_eq _ _).mp hb
    rcases hq with h | h
    · rw [← heq] at h
      have hm := mem_extractDisplayTextL _ h
      exact (stripQuotesL_no_quote _ hm).1 rfl
    · rw [← heq] at h
      have hm := mem_extractDisplayTextL _ h
      exact (stripQuotesL_no_quote _ hm).2 rfl

/-- Witness for claim C10 at a concrete input: the search string `don't`
(which contains a quote) does not match the value `don't` itself, because
the value is cleaned to `dont` before matching. -/
theorem claim_C10_quote_removal_witness :
    compiledTest "don't".data (extractDisplayTextL (cleanTagL "don't".data)) = false :=
  claim_C10_quote_removal.2.1 "don't".data "don't".data (Or.inl (by decide))

/-!  ## Claim C7  -/

/-- Claim C7: `importPatternsFromJson` rejects malformed input (non-object
data, missing or non-array `patterns`, a non-object pattern, non-string
`search`/`replace`, a present non-boolean `removeMode`) with the
corresponding field-level error message and leaves the existing settings
untouched; on success every imported pattern whose `removeMode` was absent
gets `removeMode = false`. -/
theorem claim_C7_import_validation :
    (∀ (settings : List RenamePattern) (data : JValue) (merge : Bool) (e : String),
        validateImportData data = some e →
        importPatternsFromJson settings data merge = (⟨false, some e, none⟩, settings))
    ∧ (∀ (settings : List RenamePattern) (data : JValue) (merge : Bool),
        validateImportData data = none →
        ∃ ps, getPatternsArr data = some ps ∧
          importPatternsFromJson settings data merge =
            (⟨true, none, some ps.length⟩,
             if merge then settings ++ ps.map mkImportedPattern
             else ps.map mkImportedPattern) ∧
          ∀ p ∈ ps, p.getField "removeMode" = none →
            (mkImportedPattern p).removeMode = false)
    ∧ validateImportData (JValue.str "nope") = some "Invalid JSON format"
    ∧ validateImportData JValue.null = some "Invalid JSON format"
    ∧ validateImportData (JValue.obj []) = some "Missing or invalid patterns array"
    ∧ validateImportData (JValue.obj [("patterns", JValue.num 3)]) =
        some "Missing or invalid patterns array"
    ∧ validateImportData (JValue.obj [("patterns", JValue.arr [JValue.num 3])]) =
        some "Pattern 1 is invalid"
    ∧ validateImportData
        (JValue.obj [("patterns", JValue.arr [JValue.obj [("search", JValue.str "a")]])]) =
        some "Pattern 1 must have search and replace strings"
    ∧ validateImportData
        (JValue.obj [("patterns", JValue.arr
          [JValue.obj [("search", JValue.str "a"), ("replace", JValue.str "b"),
            ("removeMode", JValue.num 1)]])]) =
        some "Pattern 1 removeMode must be boolean" := by
  refine ⟨?_, ?_, rfl, rfl, rfl, rfl, rfl, rfl, rfl⟩
  · intro settings data merge e he
    simp [importPatternsFromJson, he]
  · intro settings data merge hv
    cases hg : getPatternsArr data with
    | none =>
      exfalso
      rw [validateImportData] at hv
      cases hok : (data.truthy && data.isObjectType) with
      | false => rw [hok] at hv; simp at hv
      | true => rw [hok] at hv; rw [hg] at hv; simp at hv
    | some ps =>
      refine ⟨ps, rfl, ?_, ?_⟩
      · simp [importPatternsFromJson, hv, hg]
      · intro p hp hrm
        simp [mkImportedPattern, hrm]

/-- Witness for claim C7 at a concrete input: importing
`{patterns: [{search: "a", replace: "b"}]}` (no `removeMode`) into the
settings `[]` succeeds and yields one pattern with `removeMode = false`. -/
theorem claim_C7_import_validation_witness :
    ∃ ps, getPatternsArr
        (JValue.obj [("patterns", JValue.arr
          [JValue.obj [("search", JValue.str "a"), ("replace", JValue.str "b")]])]) = some ps ∧
      importPatternsFromJson []
        (JValue.obj [("patterns", JValue.arr
          [JValue.obj [("search", JValue.str "a"), ("replace", JValue.str "b")]])]) false =
        (⟨true, none, some ps.length⟩,
         if false then [] ++ ps.map mkImportedPattern else ps.map mkImportedPattern) ∧
      ∀ p ∈ ps, p.getField "removeMode" = none →
        (mkImportedPattern p).removeMode = false :=
  claim_C7_import_validation.2.1 []
    (JValue.obj [("patterns", JValue.arr
      [JValue.obj [("search", JValue.str "a"), ("replace", JValue.str "b")]])]) false rfl

/-!  ## Claim C5  -/

theorem renameTags_foldl (P : List RenamePattern) (files : List VFile)
    (acc : BatchResult) :
    files.foldl (renameTagsStep P) acc =
      ⟨acc.processed + files.countP (fileProcessed P),
       acc.modified + files.countP (fileModifies P),
       acc.errors ++ files.filterMap (fileError? P)⟩ := by
  induction files generalizing acc with
  | nil => simp
  | cons f files ih =>
    rw [List.foldl_cons, ih]
    cases hr : f.readResult with
    | error e =>
      have h1 : renameTagsStep P acc f = { acc with errors := acc.errors ++ [e] } := by
        rw [renameTagsStep, hr]
      rw [h1]
      simp only [BatchResult.mk.injEq]
      refine ⟨?_, ?_, ?_⟩
      · simp [fileProcessed, hr, List.countP_cons]
      · simp [fileModifies, hr, List.countP_cons]
      · simp [fileError?, hr, List.filterMap_cons]
    | ok c =>
      by_cases hc : processFileContent c P = c
      · have h1 : renameTagsStep P acc f = { acc with processed := acc.processed + 1 } := by
          simp [renameTagsStep, hr, hc]
        rw [h1]
        simp only [BatchResult.mk.injEq]
        refine ⟨?_, ?_, ?_⟩
        · simp [fileProcessed, hr, List.countP_cons, hc]
          omega
        · simp [fileModifies, hr, List.countP_cons, hc]
        · simp [fileError?, hr, List.filterMap_cons, hc]
      · cases hw : f.writeError with
        | some e =>
          have h1 : renameTagsStep P acc f = { acc with errors := acc.errors ++ [e] } := by
            simp [renameTagsStep, hr, hc, hw]
          rw [h1]
          simp only [BatchResult.mk.injEq]
          refine ⟨?_, ?_, ?_⟩
          · simp [fileProcessed, hr, List.countP_cons, hc, hw]
          · simp [fileModifies, hr, List.countP_cons, hc, hw]
          · simp [fileError?, hr, List.filterMap_cons, hc, hw]
        | none =>
          have h1 : renameTagsStep P acc f =
              { acc with modified := acc.modified + 1, processed := acc.processed + 1 } := by
            simp [renameTagsStep, hr, hc, hw]
          rw [h1]
          simp only [BatchResult.mk.injEq]
          refine ⟨?_, ?_, ?_⟩
          · simp [fileProcessed, hr, List.countP_cons, hc, hw]
            omega
          · simp [fileModifies, hr, List.countP_cons, hc, hw]
            omega
          · simp [fileError?, hr, List.filterMap_cons, hc, hw]

/-- Claim C5: in a batch where the read or write of exactly one file fails,
`renameTags` returns normally (it is a total function of the per-file
outcomes), reports exactly one per-file error, and counts the processed and
modified files among the other files correctly (the failing file
contributes to neither count). -/
theorem claim_C5_batch_isolation (files : List VFile) (patterns : List RenamePattern)
    (hvp : validPatterns patterns ≠ [])
    (hone : files.countP (fun f => (fileError? (validPatterns patterns) f).isSome) = 1) :
    (renameTags files patterns).errors.length = 1
    ∧ (renameTags files patterns).modified =
        files.countP (fileModifies (validPatterns patterns))
    ∧ (renameTags files patterns).processed =
        files.countP (fileProcessed (validPatterns patterns)) := by
  have hne : (validPatterns patterns).isEmpty = false := by
    cases h : validPatterns patterns with
    | nil => exact absurd h hvp
    | cons a l => rfl
  rw [renameTags]
  simp only [hne, Bool.false_eq_true, if_false]
  rw [renameTags_foldl]
  refine ⟨?_, by simp, by simp⟩
  simp only [List.nil_append]
  rw [length_filterMap_countP, hone]

/-- Witness for claim C5: a two-file batch whose first file fails to read
still counts the second (modified) file. -/
theorem claim_C5_batch_isolation_witness :
    (renameTags [⟨Except.error "boom", none⟩, ⟨Except.ok "---\ntags: [a]\n---\n", none⟩]
        [⟨"a", "b", false⟩]).errors.length = 1
    ∧ (renameTags [⟨Except.error "boom", none⟩, ⟨Except.ok "---\ntags: [a]\n---\n", none⟩]
        [⟨"a", "b", false⟩]).modified =
      [⟨Except.error "boom", none⟩,
        (⟨Except.ok "---\ntags: [a]\n---\n", none⟩ : VFile)].countP
        (fileModifies (validPatterns [⟨"a", "b", false⟩]))
    ∧ (renameTags [⟨Except.error "boom", none⟩, ⟨Except.ok "---\ntags: [a]\n---\n", none⟩]
        [⟨"a", "b", false⟩]).processed =
      [⟨Except.error "boom", none⟩,
        (⟨Except.ok "---\ntags: [a]\n---\n", none⟩ : VFile)].countP
        (fileProcessed (validPatterns [⟨"a", "b", false⟩])) :=
  claim_C5_batch_isolation
    [⟨Except.error "boom", none⟩, ⟨Except.ok "---\ntags: [a]\n---\n", none⟩]
    [⟨"a", "b", false⟩] (by decide) (by decide)

/-!  ## Claim C8  -/

/-- Counterexample for claim C8 as stated: the TypeScript
`TagProcessor.processFileContent` writes the replacement value verbatim —
a replacement containing a space is written with the space, not with an
underscore (the whitespace-to-underscore conversion exists only in an older
compiled variant of the processor, which in turn does not reapply link
wrappers, so no variant does both). -/
theorem claim_C8_counterexample :
    processFileContent "---\ntags: [a]\n---\n" [⟨"a", "b c", false⟩] =
      "---\ntags: [\"b c\"]\n---\n"
    ∧ processFileContent "---\ntags: [a]\n---\n" [⟨"a", "b c", false⟩] ≠
      "---\ntags: [\"b_c\"]\n---\n" := by
  constructor
  · rfl
  · decide

/-- Claim C8 (amended): when a value matches a non-remove pattern, the
value written out is the pattern's `replace` string verbatim (no
whitespace-to-underscore substitution), and if the original (trimmed) value
was a display-link `[display](target)`, the link wrapper is reapplied
around the replacement with the original target preserved. -/
theorem claim_C8_amended (p : RenamePattern) (t : List Char)
    (hnr : p.removeMode = false) (hm : tagMatchesTrim p t = true) :
    (linkParseL (jsTrimL t) = none → arrayValueStep p t = p.replace.data)
    ∧ (∀ d xs, jsTrimL t = '[' :: (d ++ (']' :: '(' :: (xs ++ [')']))) →
        d ≠ [] → (∀ x ∈ d, x ≠ ']') → (∀ x ∈ xs, x ≠ ')') →
        arrayValueStep p t = '[' :: (p.replace.data ++ (']' :: '(' :: (xs ++ [')'])))) := by
  constructor
  · intro hn
    rw [arrayValueStep, if_pos hm, replaceWithLink, hn]
  · intro d xs hshape hd hdm hxs
    rw [arrayValueStep, if_pos hm, replaceWithLink, hshape, linkParseL_of_shape d xs hd hdm hxs]

/-- Witness for claim C8 (amended): renaming the display text of
`[Link](http://x)` to `New` yields `[New](http://x)`. -/
theorem claim_C8_amended_witness :
    arrayValueStep ⟨"Link", "New", false⟩ "[Link](http://x)".data =
      '[' :: ("New".data ++ (']' :: '(' :: ("http://x".data ++ [')']))) :=
  (claim_C8_amended ⟨"Link", "New", false⟩ "[Link](http://x)".data rfl (by decide)).2
    "Link".data "http://x".data (by decide) (by decide) (by decide) (by decide)

/-!  ## Claim C3  -/

theorem arrayApply_allRemove (P : List RenamePattern) (ts : List (List Char))
    (hP : ∀ p ∈ P, p.removeMode = true) :
    arrayApplyPatterns P ts =
      (ts.filter (fun t => P.all (fun p => !tagMatchesTrim p t)), false) := by
  induction P generalizing ts with
  | nil => simp [arrayApplyPatterns]
  | cons p P ih =>
    have hp : p.removeMode = true := hP p (by simp)
    have hstep : arrayApplyPatterns (p :: P) ts =
        arrayApplyPatterns P (ts.filter (fun t => !tagMatchesTrim p t)) := by
      rw [arrayApplyPatterns, List.foldl_cons, arrayApplyPatterns]
      congr 1
      simp [hp]
    rw [hstep, ih _ (fun q hq => hP q (by simp [hq]))]
    rw [List.filter_filter]
    refine congrArg (fun l => (l, false)) ?_
    apply List.filter_congr
    intro t ht
    simp [List.all_cons, Bool.and_comm]

theorem listApply_allRemove (P : List RenamePattern) (ts : List (List Char))
    (hP : ∀ p ∈ P, p.removeMode = true) :
    listApplyPatterns P ts =
      (ts.filter (fun t => P.all (fun p => !tagMatchesRaw p t)), false) := by
  induction P generalizing ts with
  | nil => simp [listApplyPatterns]
  | cons p P ih =>
    have hp : p.removeMode = true := hP p (by simp)
    have hstep : listApplyPatterns (p :: P) ts =
        listApplyPatterns P (ts.filter (fun t => !tagMatchesRaw p t)) := by
      rw [listApplyPatterns, List.foldl_cons, listApplyPatterns]
      congr 1
      simp [hp]
    rw [hstep, ih _ (fun q hq => hP q (by simp [hq]))]
    rw [List.filter_filter]
    refine congrArg (fun l => (l, false)) ?_
    apply List.filter_congr
    intro t ht
    simp [List.all_cons, Bool.and_comm]

/-- Counterexample for claim C3 as stated: in the pattern list
`[{a→b, rename}, {a, remove}]` every value of the list field (the single
value `a`) matches a remove-mode pattern, yet the field is not deleted:
the earlier rename pattern rewrites `a` to `b` before the remove pattern
runs, so the header keeps a `tags:` list containing `b`. -/
theorem claim_C3_counterexample :
    processFileContent "---\ntags:\n  - a\n---\n"
        [⟨"a", "b", false⟩, ⟨"a", "x", true⟩] =
      "---\ntags:\n  - \"b\"\n---\n"
    ∧ tagMatchesRaw ⟨"a", "x", true⟩ "a".data = true
    ∧ (⟨"a", "x", true⟩ : RenamePattern).removeMode = true := by
  refine ⟨rfl, by decide, rfl⟩

/-- Claim C3 (amended): when the patterns act purely as removals (all
patterns are remove-mode) and every nonempty value of the field matches
some pattern, the Array-shape callback rewrites the field as the empty
array literal `tags: []`, while the List-shape callback deletes the whole
block (returns the empty replacement); with non-remove patterns ahead of
the removals a value can be rewritten before the removal matches it. -/
theorem claim_C3_amended (P : List RenamePattern) (hP : ∀ p ∈ P, p.removeMode = true) :
    (∀ inner : List Char,
      (∀ t ∈ (splitOnCharL ',' inner).map cleanTagL, t ≠ [] →
        ∃ p ∈ P, tagMatchesTrim p t = true) →
      (processArrayContent P inner).1 = "tags: []".data)
    ∧ (∀ block : List Char,
      ((splitOnCharL '\n' block).filterMap itemLineTag?) ≠ [] →
      (∀ t ∈ ((splitOnCharL '\n' block).filterMap itemLineTag?).filter
          (fun t => !t.isEmpty),
        ∃ p ∈ P, tagMatchesRaw p t = true) →
      (processListBlock P block).1 = []) := by
  constructor
  · intro inner hval
    have h1 := arrayApply_allRemove P ((splitOnCharL ',' inner).map cleanTagL) hP
    simp only [processArrayContent, h1]
    rw [formatArrayValues]
    have hempty : ((((splitOnCharL ',' inner).map cleanTagL).filter
        (fun t => P.all (fun p => !tagMatchesTrim p t))).filter
          (fun t => !t.isEmpty)) = [] := by
      rw [List.filter_eq_nil_iff]
      intro t ht
      have hmem := List.mem_filter.mp ht
      by_cases hne : t = []
      · subst hne; simp
      · exfalso
        obtain ⟨p, hpP, hm⟩ := hval t hmem.1 hne
        have hall := hmem.2
        rw [List.all_eq_true] at hall
        have := hall p hpP
        rw [hm] at this
        simp at this
    rw [hempty]
    rfl
  · intro block hitems hval
    have hIE : ((splitOnCharL '\n' block).filterMap itemLineTag?).isEmpty = false := by
      cases hI : (splitOnCharL '\n' block).filterMap itemLineTag? with
      | nil => exact absurd hI hitems
      | cons a l => rfl
    have h1 := listApply_allRemove P
      (((splitOnCharL '\n' block).filterMap itemLineTag?).filter (fun t => !t.isEmpty)) hP
    have hemp : ((((splitOnCharL '\n' block).filterMap itemLineTag?).filter
        (fun t => !t.isEmpty)).filter
          (fun t => P.all (fun p => !tagMatchesRaw p t))) = [] := by
      rw [List.filter_eq_nil_iff]
      intro t ht
      obtain ⟨p, hpP, hm⟩ := hval t ht
      intro hall
      rw [List.all_eq_true] at hall
      have := hall p hpP
      rw [hm] at this
      simp at this
    simp only [processListBlock, hIE, Bool.false_eq_true, if_false, h1, hemp]
    simp

/-- Witness for claim C3 (amended) at concrete inputs: removing `a` and
`b` empties the array field to `tags: []` and deletes the list block. -/
theorem claim_C3_amended_witness :
    (processArrayContent [⟨"a", "", true⟩, ⟨"b", "", true⟩] "a, b".data).1 =
      "tags: []".data
    ∧ (processListBlock [⟨"a", "", true⟩, ⟨"b", "", true⟩]
        "tags:\n  - a\n  - b\n".data).1 = [] :=
  ⟨(claim_C3_amended [⟨"a", "", true⟩, ⟨"b", "", true⟩] (by decide)).1
    "a, b".data (by decide),
   (claim_C3_amended [⟨"a", "", true⟩, ⟨"b", "", true⟩] (by decide)).2
    "tags:\n  - a\n  - b\n".data (by decide) (by decide)⟩

/-!  ## Claim C9  -/

theorem insFold_nodup {α : Type} [DecidableEq α] (l acc : List α)
    (h : acc.Nodup) :
    (l.foldl (fun acc t => if t ∈ acc then acc else acc ++ [t]) acc).Nodup := by
  induction l generalizing acc with
  | nil => simpa using h
  | cons t l ih =>
    rw [List.foldl_cons]
    by_cases ht : t ∈ acc
    · rw [if_pos ht]
      exact ih acc h
    · rw [if_neg ht]
      refine ih (acc ++ [t]) ?_
      simp [List.nodup_append, h, ht]

theorem mem_insFold {α : Type} [DecidableEq α] (l acc : List α) (a : α) :
    a ∈ l.foldl (fun acc t => if t ∈ acc then acc else acc ++ [t]) acc ↔
      a ∈ acc ∨ a ∈ l := by
  induction l generalizing acc with
  | nil => simp
  | cons t l ih =>
    rw [List.foldl_cons]
    by_cases ht : t ∈ acc
    · rw [if_pos ht, ih]
      constructor
      · rintro (h | h)
        · exact Or.inl h
        · exact Or.inr (by simp [h])
      · rintro (h | h)
        · exact Or.inl h
        · rcases List.mem_cons.mp h with h1 | h1
          · subst h1; exact Or.inl ht
          · exact Or.inr h1
    · rw [if_neg ht, ih]
      simp [List.mem_append, or_assoc, List.mem_cons]

theorem lexLe_total (a b : List Char) : lexLe a b = true ∨ lexLe b a = true := by
  induction a generalizing b with
  | nil => left; rfl
  | cons x as ih =>
    cases b with
    | nil => right; rfl
    | cons y bs =>
      by_cases h1 : x.toNat < y.toNat
      · left; simp [lexLe, h1]
      · by_cases h2 : y.toNat < x.toNat
        · right; simp [lexLe, h2]
        · rcases ih bs with h | h
          · left; simp [lexLe, h1, h2, h]
          · right; simp [lexLe, h1, h2, h]

theorem lexLe_trans {a b c : List Char} (h1 : lexLe a b = true)
    (h2 : lexLe b c = true) : lexLe a c = true := by
  induction a generalizing b c with
  | nil => rfl
  | cons x as ih =>
    cases b with
    | nil => simp [lexLe] at h1
    | cons y bs =>
      cases c with
      | nil => simp [lexLe] at h2
      | cons z cs =>
        rw [lexLe] at h1 h2 ⊢
        by_cases hxy : x.toNat < y.toNat
        · by_cases hyz : y.toNat < z.toNat
          · rw [if_pos (by omega)]
          · by_cases hzy : z.toNat < y.toNat
            · rw [if_neg hyz, if_pos hzy] at h2
              simp at h2
            · rw [if_pos (by omega)]
        · by_cases hyx : y.toNat < x.toNat
          · rw [if_neg hxy, if_pos hyx] at h1
            simp at h1
          · by_cases hyz : y.toNat < z.toNat
            · rw [if_pos (by omega)]
            · by_cases hzy : z.toNat < y.toNat
              · rw [if_neg hyz, if_pos hzy] at h2
                simp at h2
              · rw [if_neg hxy, if_neg hyx] at h1
                rw [if_neg hyz, if_neg hzy] at h2
                rw [if_neg (by omega), if_neg (by omega)]
                exact ih h1 h2

theorem jsSetDedup_nodup {α : Type} [DecidableEq α] (ts : List α) :
    (jsSetDedup ts).Nodup := by
  rw [jsSetDedup]
  exact insFold_nodup _ [] (by simp)

theorem mem_jsSetDedup {α : Type} [DecidableEq α] (ts : List α) (a : α) :
    a ∈ jsSetDedup ts ↔ a ∈ ts := by
  rw [jsSetDedup, mem_insFold]
  simp

/-- Counterexample for claim C9 as stated: the vault scan sorts with the
default `Array.prototype.sort()` comparator (code-unit order), so a vault
containing the tags `Zebra` and `apple` yields `[Zebra, apple]`, which is
not sorted case-insensitively (`apple` would come first). -/
theorem claim_C9_counterexample :
    getAllTagsInVault [Except.ok "---\ntags: [Zebra, apple]\n---\n"] =
      ["Zebra", "apple"]
    ∧ ¬ List.Sorted (fun a b => jsStrLe (lowerStr a) (lowerStr b) = true)
        ["Zebra", "apple"] := by
  constructor
  · rfl
  · intro h
    have h2 := List.rel_of_sorted_cons h "apple" (by simp)
    revert h2
    decide

/-- Claim C9 (amended): the vault-wide tag scan returns every distinct tag
value exactly once (regardless of how many documents contain it), sorted by
the default code-unit string order (case-sensitive: uppercase letters sort
before lowercase ones), not case-insensitively. -/
theorem claim_C9_amended (reads : List (Except String String)) :
    List.Sorted (fun a b => jsStrLe a b = true) (getAllTagsInVault reads)
    ∧ (getAllTagsInVault reads).Nodup
    ∧ ∀ v, v ∈ getAllTagsInVault reads ↔
        ∃ c, Except.ok c ∈ reads ∧ v ∈ extractTagsFromContent c := by
  haveI hT : IsTotal String (fun a b => jsStrLe a b = true) :=
    ⟨fun a b => lexLe_total a.data b.data⟩
  haveI hTr : IsTrans String (fun a b => jsStrLe a b = true) :=
    ⟨fun _ _ _ h1 h2 => lexLe_trans h1 h2⟩
  refine ⟨List.sorted_insertionSort _ _, ?_, ?_⟩
  · have hperm := List.perm_insertionSort (fun a b => jsStrLe a b = true)
      (insertionDedupStr (reads.flatMap (fun r =>
        match r with
        | Except.ok c => extractTagsFromContent c
        | Except.error _ => [])))
    refine hperm.nodup_iff.mpr ?_
    rw [insertionDedupStr]
    exact jsSetDedup_nodup _
  · intro v
    rw [getAllTagsInVault]
    have hperm := List.perm_insertionSort (fun a b => jsStrLe a b = true)
      (insertionDedupStr (reads.flatMap (fun r =>
        match r with
        | Except.ok c => extractTagsFromContent c
        | Except.error _ => [])))
    rw [hperm.mem_iff]
    rw [insertionDedupStr, mem_jsSetDedup]
    simp only [List.mem_flatMap]
    constructor
    · rintro ⟨r, hr, hv⟩
      cases r with
      | ok c => exact ⟨c, hr, hv⟩
      | error e => simp at hv
    · rintro ⟨c, hc, hv⟩
      exact ⟨Except.ok c, hc, hv⟩

/-!  ## Claim C4  -/

/-- Counterexample for claim C2 as stated: with the non-remove pattern list
`[{b→c}, {a→b}]`, the first application maps `a` to `b` (the `b→c` pattern
has already run), and a second application then maps `b` to `c`; applying
twice is not the same as applying once. -/
theorem claim_C2_counterexample :
    processFileContent (processFileContent "---\ntags: [a]\n---\n"
        [⟨"b", "c", false⟩, ⟨"a", "b", false⟩])
        [⟨"b", "c", false⟩, ⟨"a", "b", false⟩] ≠
      processFileContent "---\ntags: [a]\n---\n"
        [⟨"b", "c", false⟩, ⟨"a", "b", false⟩]
    ∧ (∀ p ∈ [(⟨"b", "c", false⟩ : RenamePattern), ⟨"a", "b", false⟩],
        p.removeMode = false) := by
  constructor
  · decide
  · decide

theorem chain_noMatch_id (P : List RenamePattern) (v : List Char)
    (h : ∀ p ∈ P, tagMatchesTrim p v = false) : chainApply P v = v := by
  induction P with
  | nil => rfl
  | cons p P ih =>
    have hstep : chainApply (p :: P) v = chainApply P v := by
      rw [chainApply, List.foldl_cons, arrayValueStep,
        if_neg (by rw [h p (by simp)]; simp)]
      rfl
    rw [hstep]
    exact ih (fun q hq => h q (by simp [hq]))

theorem linkParseL_none_of_head {s : List Char}
    (h : ∀ c, s.head? = some c → c ≠ '[') : linkParseL s = none := by
  cases s with
  | nil => rfl
  | cons c0 rest =>
    rw [linkParseL, if_neg (h c0 rfl)]

theorem dropWhile_id_of_head {p : Char → Bool} {s : List Char}
    (h : ∀ c, s.head? = some c → p c = false) : s.dropWhile p = s := by
  cases s with
  | nil => rfl
  | cons c rest =>
    rw [List.dropWhile_cons, if_neg (by rw [h c rfl]; simp)]

theorem jsTrimL_id {s : List Char}
    (h1 : ∀ c, s.head? = some c → jsIsSpace c = false)
    (h2 : ∀ c, s.getLast? = some c → jsIsSpace c = false) : jsTrimL s = s := by
  rw [jsTrimL, dropWhile_id_of_head h1]
  rw [dropWhile_id_of_head (fun c hc => h2 c (by rwa [← List.head?_reverse]))]
  exact List.reverse_reverse s

theorem display_replaceWithLink (p : RenamePattern) (hplain : plainReplace p)
    (base : List Char) :
    extractDisplayTextL (jsTrimL (replaceWithLink p.replace.data base)) =
      p.replace.data := by
  obtain ⟨hne, htrim, hnoLb, hnoRb⟩ := hplain
  cases hl : linkParseL base with
  | none =>
    simp only [replaceWithLink, hl]
    rw [htrim]
    have hnone : linkParseL p.replace.data = none := by
      refine linkParseL_none_of_head ?_
      intro c hc he
      subst he
      apply hnoLb
      cases hs : p.replace.data with
      | nil => rw [hs] at hc; simp at hc
      | cons a l =>
        rw [hs] at hc
        simp only [List.head?_cons, Option.some.injEq] at hc
        subst hc
        exact List.mem_cons_self _ _
    simp [extractDisplayTextL, hnone]
  | some dp =>
    obtain ⟨d0, paren⟩ := dp
    obtain ⟨xs, hbase, hparen, hd0, hdm, hxs⟩ := linkParseL_some hl
    simp only [replaceWithLink, hl, hparen]
    have htrimid : jsTrimL ('[' :: (p.replace.data ++ (']' :: '(' :: (xs ++ [')'])))) =
        '[' :: (p.replace.data ++ (']' :: '(' :: (xs ++ [')']))) := by
      refine jsTrimL_id ?_ ?_
      · intro c hc
        simp only [List.head?_cons, Option.some.injEq] at hc
        subst hc
        rfl
      · intro c hc
        have hrw : ('[' :: (p.replace.data ++ (']' :: '(' :: (xs ++ [')'])))) =
            (('[' :: p.replace.data ++ (']' :: '(' :: xs)) ++ [')']) := by
          simp
        rw [hrw, List.getLast?_concat] at hc
        cases hc
        rfl
    rw [htrimid]
    have hdisp := linkParseL_of_shape p.replace.data xs hne
      (fun x hx he => by subst he; exact hnoRb hx)
      hxs
    simp [extractDisplayTextL, hdisp]

theorem chain_cases (Pfull : List RenamePattern)
    (hplain : ∀ p ∈ Pfull, plainReplace p)
    (hchain : ∀ p ∈ Pfull, ∀ q ∈ Pfull,
      compiledTest q.search.data p.replace.data = false) :
    ∀ (P : List RenamePattern), (∀ p ∈ P, p ∈ Pfull) → ∀ t : List Char,
      (chainApply P t = t ∧ ∀ q ∈ P, tagMatchesTrim q t = false)
      ∨ (∀ q ∈ Pfull, tagMatchesTrim q (chainApply P t) = false) := by
  intro P
  induction P with
  | nil =>
    intro _ t
    left
    exact ⟨rfl, by simp⟩
  | cons p P ih =>
    intro hsub t
    by_cases hm : tagMatchesTrim p t = true
    · right
      have hpF : p ∈ Pfull := hsub p (by simp)
      have hval : ∀ q ∈ Pfull,
          tagMatchesTrim q (replaceWithLink p.replace.data (jsTrimL t)) = false := by
        intro q hq
        rw [tagMatchesTrim, display_replaceWithLink p (hplain p hpF) (jsTrimL t)]
        exact hchain p hpF q hq
      have hstay : chainApply P (replaceWithLink p.replace.data (jsTrimL t)) =
          replaceWithLink p.replace.data (jsTrimL t) :=
        chain_noMatch_id P _ (fun q hq => hval q (hsub q (by simp [hq])))
      have hstep : chainApply (p :: P) t =
          chainApply P (replaceWithLink p.replace.data (jsTrimL t)) := by
        rw [chainApply, List.foldl_cons, arrayValueStep, if_pos hm]
        rfl
      rw [hstep, hstay]
      exact hval
    · have hmf : tagMatchesTrim p t = false := by
        cases hb : tagMatchesTrim p t with
        | false => rfl
        | true => exact absurd hb hm
      have hstep : chainApply (p :: P) t = chainApply P t := by
        rw [chainApply, List.foldl_cons, arrayValueStep, if_neg (by rw [hmf]; simp)]
        rfl
      rcases ih (fun q hq => hsub q (by simp [hq])) t with ⟨he, hall⟩ | hre
      · left
        refine ⟨by rw [hstep, he], ?_⟩
        intro q hq
        rcases List.mem_cons.mp hq with h1 | h1
        · subst h1; exact hmf
        · exact hall q h1
      · right
        rw [hstep]
        exact hre

theorem nonRemove_foldl_fst (P : List RenamePattern)
    (h : ∀ p ∈ P, p.removeMode = false) :
    ∀ (ts : List (List Char)) (b : Bool),
      ∃ b2, P.foldl (fun acc p =>
          if p.removeMode then
            (acc.1.filter (fun t => !(tagMatchesTrim p t)), acc.2)
          else
            (acc.1.map (arrayValueStep p), acc.2 || acc.1.any (tagMatchesTrim p)))
        (ts, b) = (ts.map (chainApply P), b2) := by
  induction P with
  | nil =>
    intro ts b
    refine ⟨b, ?_⟩
    have hid : ts.map (chainApply []) = ts := by
      have h2 : ts.map (chainApply []) = ts.map id :=
        List.map_congr_left (fun t _ => rfl)
      rw [h2, List.map_id]
    rw [List.foldl_nil, hid]
  | cons p P ih =>
    intro ts b
    have hp : p.removeMode = false := h p (by simp)
    rw [List.foldl_cons]
    obtain ⟨b2, hb2⟩ := ih (fun q hq => h q (by simp [hq]))
      (ts.map (arrayValueStep p)) (b || ts.any (tagMatchesTrim p))
    refine ⟨b2, ?_⟩
    simp only [hp, Bool.false_eq_true, if_false]
    rw [hb2, List.map_map]
    rfl

theorem arrayApply_nonRemove_fst (P : List RenamePattern)
    (h : ∀ p ∈ P, p.removeMode = false) (ts : List (List Char)) :
    (arrayApplyPatterns P ts).1 = ts.map (chainApply P) := by
  obtain ⟨b2, hb2⟩ := nonRemove_foldl_fst P h ts false
  rw [arrayApplyPatterns, hb2]

/-- Claim C2 (amended): for a pattern list with no remove-mode patterns, in
which no pattern's search string matches any pattern's replace value
(no chaining) and the replace values are plain tag names (nonempty, no
brackets, no surrounding whitespace), applying the array-branch value
transformation twice yields the same value list as applying it once.
Without the no-chaining condition a second application can apply further
patterns to the first application's output, as the counterexample shows. -/
theorem claim_C2_amended_idempotent (P : List RenamePattern) (ts : List (List Char))
    (hnr : ∀ p ∈ P, p.removeMode = false)
    (hplain : ∀ p ∈ P, plainReplace p)
    (hchain : ∀ p ∈ P, ∀ q ∈ P, compiledTest q.search.data p.replace.data = false) :
    (arrayApplyPatterns P ((arrayApplyPatterns P ts).1)).1 =
      (arrayApplyPatterns P ts).1 := by
  rw [arrayApply_nonRemove_fst P hnr, arrayApply_nonRemove_fst P hnr, List.map_map]
  refine List.map_congr_left ?_
  intro t _
  show chainApply P (chainApply P t) = chainApply P t
  rcases chain_cases P hplain hchain P (fun p hp => hp) t with ⟨he, hall⟩ | hre
  · rw [he]
    exact he
  · exact chain_noMatch_id P _ hre

/-- Witness for claim C2 (amended): a non-chaining rename applied twice. -/
theorem claim_C2_amended_idempotent_witness :
    (arrayApplyPatterns [⟨"work", "job", false⟩]
        ((arrayApplyPatterns [⟨"work", "job", false⟩]
          ["work".data, "other".data]).1)).1 =
      (arrayApplyPatterns [⟨"work", "job", false⟩] ["work".data, "other".data]).1 :=
  claim_C2_amended_idempotent [⟨"work", "job", false⟩] ["work".data, "other".data]
    (by decide) (by decide) (by decide)

end TagRenamer
